import Mathlib

/-!
Verification of the `aind-exaspim-dataset-utils` utility library.

The Python modules `s3_util.py`, `data_util.py`, `io_util.py` and
`smartsheet_util.py` are shallowly embedded below.  Python strings are
modelled as `List Char`; Python values that may flow through spreadsheet
cells are modelled by the small dynamic type `PyVal`; the external S3,
zarr and Smartsheet services are modelled as explicit parameters (page
sequences, oracles for directory listings, oracles for metadata reads),
so that each repository function becomes a total Lean function of the
service responses it consumes.
-/

namespace ExaSPIM

/-- A Python string, modelled as its list of unicode scalar characters. -/
abbrev Str := List Char

/-- Coerce a Lean string literal to the `Str` model. -/
def chars (s : String) : Str := s.data

/-- Python `needle in haystack` needs a prefix test: `isPre n h` is true
when `n` is a leading segment of `h`. -/
def isPre : Str → Str → Bool
  | [], _ => true
  | _ :: _, [] => false
  | a :: as, b :: bs => a == b && isPre as bs

/-- Python's substring test `needle in haystack` for strings. -/
def containsStr (needle : Str) : Str → Bool
  | [] => isPre needle []
  | c :: cs => isPre needle (c :: cs) || containsStr needle cs

/-- Python `str.lower()` (ASCII letters; the repository only lowercases
ASCII S3 prefixes). -/
def pyLower (s : Str) : Str := s.map Char.toLower

/-- Python `str.endswith(t)`. -/
def pyEndsWith (s t : Str) : Bool := isPre t.reverse s.reverse

/-- Python `os.path.join(a, b)` for the relative components used by the
repository: append a `/` separator unless `a` already ends with one. -/
def pyJoin (a b : Str) : Str :=
  if a = [] then b
  else if pyEndsWith a (chars "/") then a ++ b
  else a ++ chars "/" ++ b

/-- Python `str.split(sep)` for a one-character separator: keeps empty
fields, so the result always has one more field than separators. -/
def splitOn (sep : Char) (s : Str) : List Str :=
  s.foldr
    (fun c acc =>
      if c = sep then [] :: acc
      else
        match acc with
        | [] => [[c]]
        | a :: as => (c :: a) :: as)
    [[]]

/-- Python's `xs[-2]` on a list of fields (the second to last element);
returns `[]` when fewer than two fields exist (where Python would raise
an `IndexError`; the repository only applies it to strings that contain
a `/`, where the two agree). -/
def secondLast (l : List Str) : Str :=
  match l.reverse with
  | _ :: x :: _ => x
  | _ => []

/-- The `s.split("/")[-2]` idiom of the repository: the last directory
component of a `/`-terminated S3 prefix. -/
def secondLastComponent (s : Str) : Str := secondLast (splitOn '/' s)

/-- Dynamic values carried by spreadsheet cells and JSON-ish data:
`None`, booleans, integers and strings. -/
inductive PyVal where
  | pnone
  | pbool (b : Bool)
  | pint (n : Int)
  | pstr (s : Str)
deriving DecidableEq

/-- Python truthiness for `PyVal`: `None`, `False`, `0` and `""` are
falsy, everything else is truthy. -/
def truthy : PyVal → Bool
  | .pnone => false
  | .pbool b => b
  | .pint n => n != 0
  | .pstr s => s != []

/-- Python's short-circuiting `a or b` on dynamic values: returns `a`
when `a` is truthy and `b` otherwise. -/
def pyOr (a b : PyVal) : PyVal := if truthy a then a else b

/-- Keys of an association list. -/
def keysOf {α β : Type} (l : List (α × β)) : List α := l.map Prod.fst

/-- One step of Python `dict` construction: assign `k ↦ v`, updating the
value in place when `k` is already present and appending otherwise. -/
def dictUpsert {α β : Type} [DecidableEq α] (acc : List (α × β)) (k : α) (v : β) :
    List (α × β) :=
  if k ∈ keysOf acc then acc.map (fun kv => if kv.1 = k then (k, v) else kv)
  else acc ++ [(k, v)]

/-- Python `dict(pairs)`: left-to-right insertion with last-wins values
and first-insertion ordering. -/
def pythonDict {α β : Type} [DecidableEq α] (l : List (α × β)) : List (α × β) :=
  l.foldl (fun acc kv => dictUpsert acc kv.1 kv.2) []

/-- Python `dict` lookup `d[k]` as an `Option`. -/
def dictGet {α β : Type} [DecidableEq α] (l : List (α × β)) (k : α) : Option β :=
  (l.find? (fun kv => kv.1 = k)).map Prod.snd

/-- Python `str.rstrip(c)` for a one-character strip set. -/
def pyRstrip (c : Char) (s : Str) : Str :=
  (s.reverse.dropWhile (fun x => x = c)).reverse

/-- Python's `xs[-1]` on a list of split fields (`split` never returns an
empty list, so the `[]` default is unreachable on its outputs). -/
def lastField (l : List Str) : Str := l.getLastD []

/-- `str(n)` for a natural number. -/
def natToStr (n : Nat) : Str := Nat.toDigits 10 n

/-!  ## `s3_util.py`

One `list_objects_v2` response page.  A bucket listing service is a
function `svc : Str → Str → List S3Page` giving, for a bucket name and a
(delimiter `/`) key filter, the full sequence of response pages the
service would serve; every page but the last carries `isTruncated =
true`.  `contents` holds the object keys of the page, `commonPrefixes`
the `/`-terminated immediate-subdirectory entries; an absent
`CommonPrefixes`/`Contents` key is modelled by the empty list.  -/

structure S3Page where
  contents : List Str
  commonPrefixes : List Str
  isTruncated : Bool
deriving DecidableEq

/-- A bucket listing service: bucket name and key filter to page
sequence. -/
abbrev S3Svc := Str → Str → List S3Page

/-- `exists_in_prefix(bucket_name, prefix, target_name)`: walks every
page the paginator yields and looks for `target_name` among the file
names directly under the filter and the immediate subdirectory names. -/
def exists_in_prefix (svc : S3Svc) (bucket_name pfx target_name : Str) : Bool :=
  (svc bucket_name pfx).any (fun page =>
    page.contents.any (fun key => lastField (splitOn '/' key) == target_name)
    || page.commonPrefixes.any (fun cp =>
        lastField (splitOn '/' (pyRstrip '/' cp)) == target_name))

/-- The candidate filter of `list_bucket_prefixes`: with a truthy keyword
keep entries whose lowercased text contains it, with keyword `None` keep
everything, and with a falsy (empty) keyword keep nothing. -/
def keywordKeep (keyword : Option Str) (p : Str) : Bool :=
  match keyword with
  | some k => decide (k ≠ []) && containsStr k (pyLower p)
  | none => true

/-- The manual `while True` pagination loop of `list_bucket_prefixes`:
the first page is always consumed; further pages only while the previous
response reported `IsTruncated`. -/
def lbpLoop (keyword : Option Str) : List S3Page → List Str
  | [] => []
  | page :: rest =>
    let collected := page.commonPrefixes.filter (keywordKeep keyword)
    if page.isTruncated then collected ++ lbpLoop keyword rest else collected

/-- `list_bucket_prefixes(bucket_name, keyword)`: top-level directories
of the bucket, keyword-filtered, following continuation tokens. -/
def list_bucket_prefixes (svc : S3Svc) (bucket_name : Str) (keyword : Option Str) :
    List Str :=
  lbpLoop keyword (svc bucket_name [])

/-- `list_prefixes(bucket_name, prefix)`: normalises the trailing slash,
then issues a single `list_objects_v2` call and returns that one
response's `CommonPrefixes` — it never requests continuation pages. -/
def list_prefixes (svc : S3Svc) (bucket_name pfx : Str) : List Str :=
  let pfx2 := if pyEndsWith pfx (chars "/") then pfx else pfx ++ chars "/"
  match svc bucket_name pfx2 with
  | [] => []
  | page :: _ => page.commonPrefixes

/-- The multiscale level names visible under `prefix/fused.zarr`: each
listed subdirectory prefix reduced by `s.split("/")[-2]`. -/
def pyramid_levels (svc : S3Svc) (bucket_name pfx : Str) : List Str :=
  (list_prefixes svc bucket_name (pyJoin pfx (chars "fused.zarr"))).map
    secondLastComponent

/-- `is_valid_img_prefix(bucket_name, prefix, brain_id)`: requires the
brain id as a substring and no case-insensitive `"test"`; when a
`fused.zarr` entry exists under the candidate, additionally requires the
level names `"0"`..`"7"` among its subdirectories. -/
def is_valid_img_prefix (svc : S3Svc) (bucket_name pfx brain_id : Str) : Bool :=
  let is_test := containsStr (chars "test") (pyLower pfx)
  let has_correct_id := containsStr brain_id pfx
  if !has_correct_id || is_test then false
  else if exists_in_prefix svc bucket_name pfx (chars "fused.zarr") then
    ((List.range 8).map natToStr).all (fun s =>
      (pyramid_levels svc bucket_name pfx).contains s)
  else true

/-- `np.max` over an array shape: `none` on the empty shape (where numpy
raises). -/
def npMax : List Nat → Option Nat
  | [] => none
  | d :: ds => some (ds.foldl Nat.max d)

/-- `is_shape_plausible(prefix)`: reads the level-0 array via an
open-and-read oracle `openZarr` (the `s3fs`/`zarr` stack; `.error`
models any exception it raises).  Every failure — including `np.max` on
an empty shape — is swallowed by the `try/except` and yields `False`;
`True` exactly when the read succeeds and some dimension exceeds
25000. -/
def is_shape_plausible (openZarr : Str → Except Str (List Nat)) (pfx : Str) : Bool :=
  match openZarr (pyJoin pfx (natToStr 0)) with
  | .error _ => false
  | .ok shape =>
    match npMax shape with
    | none => false
    | some m => decide (25000 < m)

/-- `find_img_prefix(brain_id)`: lists top-level candidates filtered by
`exaspim_{brain_id}`, redirects into a `fusion` subdirectory when one
exists, keeps the candidates passing `is_valid_img_prefix`, rewrites
them to the `s3://aind-open-data/.../fused.zarr` form and keeps those
with a plausible level-0 shape. -/
def find_img_prefix (svc : S3Svc) (openZarr : Str → Except Str (List Nat))
    (brain_id : Str) : List Str :=
  let bucket_name := chars "aind-open-data"
  let keyword := chars "exaspim_" ++ brain_id
  (list_bucket_prefixes svc bucket_name (some keyword)).filterMap (fun p =>
    let p1 := if exists_in_prefix svc bucket_name p (chars "fusion")
              then pyJoin p (chars "fusion") else p
    if is_valid_img_prefix svc bucket_name p1 brain_id then
      let p2 := pyJoin (pyJoin (chars "s3://aind-open-data") p1) (chars "fused.zarr")
      if is_shape_plausible openZarr p2 then some p2 else none
    else none)

/-- Escaping used by `repr` of a Python string under quote character
`q` (backslash, the quote, and the common control characters; the
repository only formats plain S3 paths). -/
def reprEscape (q : Char) (s : Str) : Str :=
  s.flatMap (fun c =>
    if c = '\\' then ['\\', '\\']
    else if c = q then ['\\', q]
    else if c = '\n' then ['\\', 'n']
    else if c = '\r' then ['\\', 'r']
    else if c = '\t' then ['\\', 't']
    else [c])

/-- `repr` of a Python string: single quotes unless the text contains a
single quote and no double quote. -/
def pyReprStr (s : Str) : Str :=
  if '\'' ∈ s ∧ ¬ '"' ∈ s then '"' :: reprEscape '"' s ++ ['"']
  else '\'' :: reprEscape '\'' s ++ ['\'']

/-- `str` of a Python list of strings, as produced by the f-string
`f"... - {result}"`. -/
def pyListRepr (l : List Str) : Str :=
  '[' :: List.intercalate (chars ", ") (l.map pyReprStr) ++ [']']

/-- `get_img_prefix(brain_id, prefix_lookup_path)`: serve a cache hit
when a cache is supplied and holds the id; otherwise require exactly one
candidate from `find_img_prefix` and return it with a trailing slash, or
raise `Exception(f"Image Prefixes Found - {result}")`.  (The cache
rewrite on a miss only touches the cache file, not the returned value,
and is modelled by `write_json` separately.) -/
def get_img_prefix (svc : S3Svc) (openZarr : Str → Except Str (List Nat))
    (cache : Option (List (Str × Str))) (brain_id : Str) : Except Str Str :=
  match cache.bind (fun lk => dictGet lk brain_id) with
  | some cached => .ok cached
  | none =>
    match find_img_prefix svc openZarr brain_id with
    | [r] => .ok (r ++ chars "/")
    | result => .error (chars "Image Prefixes Found - " ++ pyListRepr result)

/-!  ## `data_util.py`  -/

/-- The scanning loop of Python `str.replace`, with an explicit fuel
bounding the number of steps (every step consumes at least one input
character, so fuel equal to the input length always suffices). -/
def replaceAllGo (pat rep : Str) : Nat → Str → Str
  | 0, s => s
  | fuel + 1, s =>
    match s with
    | [] => []
    | c :: cs =>
      if pat ≠ [] ∧ isPre pat (c :: cs) = true then
        rep ++ replaceAllGo pat rep fuel ((c :: cs).drop pat.length)
      else c :: replaceAllGo pat rep fuel cs

/-- Python `s.replace(pat, rep)`: replace every non-overlapping
occurrence of `pat`, scanning left to right.  (The repository only uses
the non-empty pattern `"results_"`; an empty pattern is treated as the
identity here.) -/
def replaceAll (pat rep s : Str) : Str := replaceAllGo pat rep s.length s

/-- Python string comparison `a <= b`: lexicographic on unicode scalar
values. -/
def strLe : Str → Str → Bool
  | [], _ => true
  | _ :: _, [] => false
  | a :: as, b :: bs => if a < b then true else if b < a then false else strLe as bs

/-- The propositional form of `strLe`, used to order `sorted`. -/
def StrLeP (a b : Str) : Prop := strLe a b = true

instance : DecidableRel StrLeP := fun a b => decEq (strLe a b) true

/-- Python `sorted` on strings (a stable sort; for extracting elements
it is interchangeable with insertion sort). -/
def pySorted (l : List Str) : List Str := List.insertionSort StrLeP l

/-- `find_most_recent_dirname(results_prefix_list)`: strip each entry to
its last directory component, delete the `"results_"` marker, and
re-attach it to the lexicographically largest remaining date (Python's
`sorted(dates)[-1]`; the `[]` default covers the empty input, on which
Python would raise an `IndexError`). -/
def find_most_recent_dirname (results_prefix_list : List Str) : Str :=
  let dates := results_prefix_list.map (fun p =>
    replaceAll (chars "results_") [] (secondLastComponent p))
  chars "results_" ++ (pySorted dates).getLastD []

/-!  ## `smartsheet_util.py`

A sheet snapshot: columns carry a title and id, rows carry an id, an
optional parent row id and their cells; a cell carries its column id, a
raw `value` and a `display_value`.  The Smartsheet client object is
modelled by the data it caches after construction. -/

structure Cell where
  column_id : Nat
  value : PyVal
  display_value : PyVal
deriving DecidableEq

structure SheetRow where
  id : Nat
  parent_id : Option Nat
  cells : List Cell
deriving DecidableEq

structure Sheet where
  columns : List (Str × Nat)
  rows : List SheetRow
deriving DecidableEq

/-- The constructor's `{c.title: c.id for c in sheet.columns}` lookup. -/
def column_name_to_id (sheet : Sheet) : List (Str × Nat) :=
  pythonDict sheet.columns

/-- `get_value(row_idx, column_name)`: the row's cell in the named
column, preferring `display_value` over `value` via Python `or`.
`none` models the exceptions Python raises for an out-of-range row, an
unknown column name, or a row without a cell in that column. -/
def get_value (sheet : Sheet) (row_idx : Nat) (column_name : Str) : Option PyVal := do
  let row ← sheet.rows[row_idx]?
  let col_id ← dictGet (column_name_to_id sheet) column_name
  let cell ← row.cells.find? (fun c => c.column_id == col_id)
  pure (pyOr cell.display_value cell.value)

/-- `to_dataframe()`: the DataFrame's cell grid.  Each cell contributes
`cell.value if cell.display_value else cell.display_value` — the raw
value when the display value is truthy, the (falsy) display value
otherwise. -/
def to_dataframe (sheet : Sheet) : List Str × List (List PyVal) :=
  (keysOf (column_name_to_id sheet),
   sheet.rows.map (fun row =>
     row.cells.map (fun cell =>
       if truthy cell.display_value then cell.value else cell.display_value)))

/-- The three parallel record lists accumulated by
`find_confirmed_merge_sites`. -/
structure MergeSites where
  segment_id : List PyVal
  groundtruth_id : List PyVal
  xyz : List PyVal
deriving DecidableEq

/-- `find_confirmed_merge_sites(smartsheet_client, idxs)`: the client is
modelled by its `get_value` view `gv` (row index and column name to cell
value) and `ast.literal_eval` by the oracle `le`.  A row is materialised
only when both its `"Merge Confirmation"` and `"Reviewed?"` values are
truthy; every row with a truthy `"Reviewed?"` value is counted. -/
def find_confirmed_merge_sites (gv : Nat → Str → PyVal) (le : PyVal → PyVal) :
    List Nat → MergeSites × Nat
  | [] => (⟨[], [], []⟩, 0)
  | i :: rest =>
    let is_merge := gv i (chars "Merge Confirmation")
    let is_reviewed := gv i (chars "Reviewed?")
    let r := find_confirmed_merge_sites gv le rest
    let sites' :=
      if truthy is_merge && truthy is_reviewed then
        ⟨gv i (chars "Segmentation ID") :: r.1.segment_id,
         gv i (chars "Ground Truth ID") :: r.1.groundtruth_id,
         le (gv i (chars "World Coordinates")) :: r.1.xyz⟩
      else r.1
    (sites', (if truthy is_reviewed then 1 else 0) + r.2)

/-!  ## `io_util.py`

`read_json`/`write_json` wrap `json.load`/`json.dump` over whole-file
reads and writes.  The file system is a map from paths to contents; the
JSON codec is modelled for the data the prefix cache holds — a flat
object mapping strings to strings — following CPython's `json` module:
`dump` with its defaults (`ensure_ascii=True`, separators `", "` and
`": "`, insertion order), `load` as a recursive-descent parse producing
a last-wins dict. -/

/-- JSON whitespace. -/
def isJsonWs (c : Char) : Bool := c = ' ' || c = '\t' || c = '\n' || c = '\r'

/-- Drop leading JSON whitespace. -/
def skipWs (s : Str) : Str := s.dropWhile isJsonWs

/-- Lower-case hexadecimal digit character for `d < 16`. -/
def hexDig (d : Nat) : Char :=
  if d < 10 then Char.ofNat (48 + d) else Char.ofNat (87 + d)

/-- The four hex digits of `n % 0x10000`, as emitted in a `\uXXXX`
escape. -/
def toHex4 (n : Nat) : Str :=
  [hexDig (n / 4096 % 16), hexDig (n / 256 % 16), hexDig (n / 16 % 16), hexDig (n % 16)]

/-- Value of one hexadecimal digit character. -/
def hexVal (c : Char) : Option Nat :=
  if '0' ≤ c ∧ c ≤ '9' then some (c.toNat - 48)
  else if 'a' ≤ c ∧ c ≤ 'f' then some (c.toNat - 87)
  else if 'A' ≤ c ∧ c ≤ 'F' then some (c.toNat - 55)
  else none

/-- Value of a four-digit hex run. -/
def hex4 (a b c d : Char) : Option Nat := do
  let va ← hexVal a
  let vb ← hexVal b
  let vc ← hexVal c
  let vd ← hexVal d
  pure (va * 4096 + vb * 256 + vc * 16 + vd)

/-- CPython's `py_encode_basestring_ascii` escaping of one character:
short escapes for the two JSON metacharacters and the common controls,
`\uXXXX` for the remaining characters outside `0x20`–`0x7e`, and a
surrogate pair for characters beyond the basic plane. -/
def escapeChar (c : Char) : Str :=
  if c = '"' then ['\\', '"']
  else if c = '\\' then ['\\', '\\']
  else if c = '\n' then ['\\', 'n']
  else if c = '\r' then ['\\', 'r']
  else if c = '\t' then ['\\', 't']
  else if c = Char.ofNat 8 then ['\\', 'b']
  else if c = Char.ofNat 12 then ['\\', 'f']
  else if c.toNat < 0x20 then '\\' :: 'u' :: toHex4 c.toNat
  else if c.toNat < 0x7f then [c]
  else if c.toNat < 0x10000 then '\\' :: 'u' :: toHex4 c.toNat
  else
    '\\' :: 'u' :: toHex4 (0xD800 + (c.toNat - 0x10000) / 0x400) ++
    '\\' :: 'u' :: toHex4 (0xDC00 + (c.toNat - 0x10000) % 0x400)

/-- Escape a whole string body. -/
def escapeString (s : Str) : Str := s.flatMap escapeChar

/-- A serialised JSON string literal, quotes included. -/
def serStr (s : Str) : Str := '"' :: escapeString s ++ ['"']

/-- The members of a serialised flat object, joined by `", "` with the
`": "` key separator of `json.dump`'s defaults. -/
def serMembers (m : List (Str × Str)) : Str :=
  List.intercalate (chars ", ") (m.map (fun kv => serStr kv.1 ++ ':' :: ' ' :: serStr kv.2))

/-- `json.dump` of a flat string-to-string dict. -/
def jsonDump (m : List (Str × Str)) : Str :=
  '\x7b' :: serMembers m ++ ['\x7d']

/-- Decode one short escape character. -/
def unescapeChar (e : Char) : Option Char :=
  if e = '"' then some '"'
  else if e = '\\' then some '\\'
  else if e = '/' then some '/'
  else if e = 'b' then some (Char.ofNat 8)
  else if e = 'f' then some (Char.ofNat 12)
  else if e = 'n' then some '\n'
  else if e = 'r' then some '\r'
  else if e = 't' then some '\t'
  else none

/-- Parse the body of a JSON string literal after its opening quote,
returning the decoded text and the input following the closing quote.
`\uXXXX` escapes decode a basic-plane character, or combine with a
following low `\uXXXX` when in the high-surrogate range (lone
surrogates are rejected: they have no scalar-value image).  The `fuel`
argument bounds the recursion; one unit per decoded character always
suffices. -/
def parseStrAux : Nat → Str → Option (Str × Str)
  | 0, _ => none
  | _, [] => none
  | fuel + 1, c :: rest =>
    if c = '"' then some ([], rest)
    else if c = '\\' then
      match rest with
      | [] => none
      | e :: rest2 =>
        if e = 'u' then
          match rest2 with
          | h1 :: h2 :: h3 :: h4 :: rest3 =>
            match hex4 h1 h2 h3 h4 with
            | none => none
            | some n =>
              if 0xD800 ≤ n ∧ n < 0xDC00 then
                match rest3 with
                | b1 :: u2 :: g1 :: g2 :: g3 :: g4 :: rest4 =>
                  if b1 = '\\' ∧ u2 = 'u' then
                    match hex4 g1 g2 g3 g4 with
                    | none => none
                    | some m =>
                      if 0xDC00 ≤ m ∧ m < 0xE000 then
                        (parseStrAux fuel rest4).map (fun p =>
                          (Char.ofNat (0x10000 + (n - 0xD800) * 0x400 + (m - 0xDC00)) :: p.1,
                           p.2))
                      else none
                  else none
                | _ => none
              else if 0xDC00 ≤ n ∧ n < 0xE000 then none
              else (parseStrAux fuel rest3).map (fun p => (Char.ofNat n :: p.1, p.2))
          | _ => none
        else
          match unescapeChar e with
          | none => none
          | some c2 => (parseStrAux fuel rest2).map (fun p => (c2 :: p.1, p.2))
    else (parseStrAux fuel rest).map (fun p => (c :: p.1, p.2))

/-- Parse a JSON string literal, opening quote included. -/
def parseString (s : Str) : Option (Str × Str) :=
  match s with
  | [] => none
  | c :: r => if c = '"' then parseStrAux (r.length + 1) r else none

/-- Parse the non-empty member list of a flat JSON object, consuming the
closing brace.  `fuel` bounds the number of members; one unit per
member always suffices. -/
def parseMembers : Nat → Str → Option (List (Str × Str) × Str)
  | 0, _ => none
  | fuel + 1, s =>
    match parseString s with
    | none => none
    | some (k, r1) =>
      match skipWs r1 with
      | [] => none
      | c :: r3 =>
        if c = ':' then
          match parseString (skipWs r3) with
          | none => none
          | some (v, r4) =>
            match skipWs r4 with
            | [] => none
            | c2 :: r6 =>
              if c2 = ',' then
                match parseMembers fuel (skipWs r6) with
                | some (rest, r7) => some ((k, v) :: rest, r7)
                | none => none
              else if c2 = '\x7d' then some ([(k, v)], r6)
              else none
        else none

/-- `json.load` restricted to a flat string-to-string object: parse the
object and build the (last-wins, insertion-ordered) Python dict from
its members.  `none` models the `JSONDecodeError` on any other
document. -/
def jsonLoad (s : Str) : Option (List (Str × Str)) :=
  match skipWs s with
  | [] => none
  | c :: r =>
    if c = '\x7b' then
      match skipWs r with
      | [] => none
      | c2 :: r2 =>
        if c2 = '\x7d' then (if skipWs r2 = [] then some (pythonDict []) else none)
        else
          match parseMembers ((skipWs r).length + 1) (skipWs r) with
          | some (ms, rest) => if skipWs rest = [] then some (pythonDict ms) else none
          | none => none
    else none

/-- The file system seen by `io_util`: path to contents. -/
abbrev FileSys := Str → Option Str

/-- `write_json(path, contents)`: overwrite the file at `path` with the
serialised dict. -/
def write_json (fs : FileSys) (path : Str) (contents : List (Str × Str)) : FileSys :=
  fun p => if p = path then some (jsonDump contents) else fs p

/-- `read_json(path)`: parse the file at `path`; `none` models the
`OSError` on a missing file and the `JSONDecodeError` on malformed
contents. -/
def read_json (fs : FileSys) (path : Str) : Option (List (Str × Str)) :=
  (fs path).bind jsonLoad

/-!  ## Helper lemmas  -/

theorem isPre_refl (s : Str) : isPre s s = true := by
  induction s with
  | nil => rfl
  | cons c cs ih => simp [isPre, ih]

theorem containsStr_self (t : Str) : containsStr t t = true := by
  cases t with
  | nil => rfl
  | cons c cs => simp [containsStr, isPre_refl]

theorem containsStr_append_left (t s : Str) : containsStr t (s ++ t) = true := by
  induction s with
  | nil => simpa using containsStr_self t
  | cons c cs ih =>
    simp only [List.cons_append, containsStr, List.append_eq, ih, Bool.or_true]

theorem le_foldl_max (ds : List Nat) : ∀ a, a ≤ ds.foldl Nat.max a := by
  induction ds with
  | nil => intro a; exact Nat.le_refl a
  | cons c t ih =>
    intro a
    exact Nat.le_trans (Nat.le_max_left a c) (ih (Nat.max a c))

theorem foldl_max_mem (ds : List Nat) : ∀ a, ds.foldl Nat.max a = a ∨ ds.foldl Nat.max a ∈ ds := by
  induction ds with
  | nil => intro a; exact Or.inl rfl
  | cons c t ih =>
    intro a
    rcases ih (Nat.max a c) with h | h
    · have hchoice : Nat.max a c = a ∨ Nat.max a c = c := by
        rcases Nat.le_total a c with hle | hle
        · exact Or.inr (Nat.max_eq_right hle)
        · exact Or.inl (Nat.max_eq_left hle)
      rcases hchoice with hm | hm
      · exact Or.inl (by rw [List.foldl_cons, h, hm])
      · exact Or.inr (by rw [List.foldl_cons, h, hm]; exact List.mem_cons_self c t)
    · exact Or.inr (List.mem_cons_of_mem c h)

theorem mem_le_foldl_max (ds : List Nat) : ∀ a x, x ∈ ds → x ≤ ds.foldl Nat.max a := by
  induction ds with
  | nil => intro a x hx; cases hx
  | cons c t ih =>
    intro a x hx
    rcases List.mem_cons.mp hx with rfl | hx
    · exact Nat.le_trans (Nat.le_max_right a x) (le_foldl_max t (Nat.max a x))
    · exact ih (Nat.max a c) x hx

theorem npMax_exceeds (l : List Nat) (b : Nat) :
    (∃ m, npMax l = some m ∧ b < m) ↔ ∃ d ∈ l, b < d := by
  cases l with
  | nil => simp [npMax]
  | cons d ds =>
    simp only [npMax, Option.some.injEq]
    constructor
    · rintro ⟨m, rfl, hbm⟩
      rcases foldl_max_mem ds d with h | h
      · exact ⟨d, List.mem_cons_self d ds, by omega⟩
      · exact ⟨ds.foldl Nat.max d, List.mem_cons_of_mem d h, hbm⟩
    · rintro ⟨x, hx, hbx⟩
      refine ⟨ds.foldl Nat.max d, rfl, ?_⟩
      rcases List.mem_cons.mp hx with rfl | hx
      · exact Nat.lt_of_lt_of_le hbx (le_foldl_max ds x)
      · exact Nat.lt_of_lt_of_le hbx (mem_le_foldl_max ds d x hx)

/-!  ## Claims about the Storage Locator (`s3_util.py`)  -/

/-- Claim C7: a candidate path containing the substring `"test"` in any
letter case is rejected by the validity check, whatever the bucket, the
brain identifier, and the state of the storage service. -/
theorem test_in_path_rejected (svc : S3Svc) (bucket_name pfx brain_id : Str)
    (h : containsStr (chars "test") (pyLower pfx) = true) :
    is_valid_img_prefix svc bucket_name pfx brain_id = false := by
  simp [ is_valid_img_prefix, h]

/-- Witness for C7: the upper-case `"TEST"` path is rejected even though
it contains the brain identifier. -/
theorem test_in_path_rejected_witness :
    containsStr (chars "test") (pyLower (chars "exaspim_TEST_653158/")) = true ∧
    is_valid_img_prefix (fun _ _ => []) (chars "aind-open-data")
      (chars "exaspim_TEST_653158/") (chars "653158") = false :=
  ⟨by decide,
   test_in_path_rejected (fun _ _ => []) (chars "aind-open-data")
     (chars "exaspim_TEST_653158/") (chars "653158") (by decide)⟩

/-- Claim C1, counterexample: a candidate with no `fused.zarr` entry at
all is accepted by `is_valid_img_prefix` although its pyramid directory
does not contain level `"7"` (it lists no levels whatsoever). -/
theorem valid_img_levels_cex :
    is_valid_img_prefix (fun _ _ => []) (chars "aind-open-data")
      (chars "exaspim_653158/") (chars "653158") = true ∧
    ¬ (chars "7") ∈ pyramid_levels (fun _ _ => []) (chars "aind-open-data")
      (chars "exaspim_653158/") := by
  constructor
  · decide
  · decide

/-- Claim C1 (amended): when the candidate does carry a `fused.zarr`
entry, acceptance guarantees all eight level subdirectories `"0"`..`"7"`,
and a candidate lacking level `"7"` is rejected; a candidate without a
`fused.zarr` entry skips the level check entirely. -/
theorem valid_img_levels (svc : S3Svc) (bucket_name pfx brain_id : Str)
    (hfz : exists_in_prefix svc bucket_name pfx (chars "fused.zarr") = true) :
    ( is_valid_img_prefix svc bucket_name pfx brain_id = true →
      ∀ s ∈ (List.range 8).map natToStr, s ∈ pyramid_levels svc bucket_name pfx)
    ∧ (¬ (chars "7") ∈ pyramid_levels svc bucket_name pfx →
       is_valid_img_prefix svc bucket_name pfx brain_id = false) := by
  constructor
  · intro hv s hs
    unfold is_valid_img_prefix at hv
    rw [hfz] at hv
    simp only [if_true] at hv
    split at hv
    · exact absurd hv (by simp)
    · have := List.all_eq_true.mp hv s hs
      simpa using this
  · intro h7
    unfold is_valid_img_prefix
    rw [hfz]
    simp only [if_true]
    split
    · rfl
    · refine List.all_eq_false.mpr ⟨chars "7", by decide, ?_⟩
      simp [h7]

/-- Witness for C1 (amended): a service exposing `fused.zarr` with all
eight levels accepts, and the same service with level `"7"` removed
rejects. -/
theorem valid_img_levels_witness :
    exists_in_prefix
      (fun _ p => if p = chars "exaspim_653158/" then
          [⟨[], [chars "exaspim_653158/fused.zarr/"], false⟩]
        else [⟨[], ((List.range 8).map (fun n =>
          chars "exaspim_653158/fused.zarr/" ++ natToStr n ++ chars "/")), false⟩])
      (chars "aind-open-data") (chars "exaspim_653158/") (chars "fused.zarr") = true ∧
    ∀ s ∈ (List.range 8).map natToStr,
      s ∈ pyramid_levels
        (fun _ p => if p = chars "exaspim_653158/" then
            [⟨[], [chars "exaspim_653158/fused.zarr/"], false⟩]
          else [⟨[], ((List.range 8).map (fun n =>
            chars "exaspim_653158/fused.zarr/" ++ natToStr n ++ chars "/")), false⟩])
        (chars "aind-open-data") (chars "exaspim_653158/") :=
  ⟨by decide,
   (valid_img_levels _ (chars "aind-open-data") (chars "exaspim_653158/")
      (chars "653158") (by decide)).1 (by decide)⟩

/-- Claim C2, evaluation at the failing input: served a truncated first
page `["a/x/"]` followed by a final page `["a/y/"]`, the single-request
`list_prefixes` returns only the first page's directory, while the
pagination loop used by `list_bucket_prefixes` collects both. -/
theorem listing_pagination_single_page_eval :
    list_prefixes
      (fun _ _ => [⟨[], [chars "a/x/"], true⟩, ⟨[], [chars "a/y/"], false⟩])
      (chars "bkt") (chars "a") = [chars "a/x/"] ∧
    list_bucket_prefixes
      (fun _ _ => [⟨[], [chars "a/x/"], true⟩, ⟨[], [chars "a/y/"], false⟩])
      (chars "bkt") none = [chars "a/x/", chars "a/y/"] := by
  constructor
  · rfl
  · rfl

/-- Claim C6: `is_shape_plausible` swallows every failure of the
open-and-read oracle into the result `false`, and returns `true`
exactly when the level-0 read succeeds and some dimension exceeds
25000. -/
theorem shape_plausible_total (openZarr : Str → Except Str (List Nat)) (pfx : Str) :
    (∀ e, openZarr (pyJoin pfx (natToStr 0)) = .error e →
      is_shape_plausible openZarr pfx = false)
    ∧ ( is_shape_plausible openZarr pfx = true ↔
       ∃ shape, openZarr (pyJoin pfx (natToStr 0)) = .ok shape ∧ ∃ d ∈ shape, 25000 < d) := by
  constructor
  · intro e he
    simp [ is_shape_plausible, he]
  · unfold is_shape_plausible
    cases hz : openZarr (pyJoin pfx (natToStr 0)) with
    | error e => simp
    | ok shape =>
      simp only [Except.ok.injEq, exists_eq_left']
      rw [← npMax_exceeds shape 25000]
      cases hm : npMax shape with
      | none => simp [hm]
      | some m => simp [hm]

/-- Witness for C6: a failing read yields `false`; a successful read of
shape `[1, 30000, 2]` yields `true`. -/
theorem shape_plausible_total_witness :
    is_shape_plausible (fun _ => .error (chars "boom")) (chars "p") = false ∧
    is_shape_plausible (fun _ => .ok [1, 30000, 2]) (chars "p") = true :=
  ⟨(shape_plausible_total (fun _ => .error (chars "boom")) (chars "p")).1
      (chars "boom") rfl,
   (shape_plausible_total (fun _ => .ok [1, 30000, 2]) (chars "p")).2.mpr
      ⟨[1, 30000, 2], rfl, 30000, by decide, by decide⟩⟩

/-- Claim C3: when the identifier misses the cache, exactly one
surviving candidate is required — a singleton candidate list yields that
candidate's path (with its trailing slash), and any other count raises
an error whose message carries the full rendered candidate list. -/
theorem unique_candidate_required (svc : S3Svc) (oz : Str → Except Str (List Nat))
    (cache : Option (List (Str × Str))) (brain_id : Str)
    (hmiss : cache.bind (fun lk => dictGet lk brain_id) = none) :
    (∀ r, find_img_prefix svc oz brain_id = [r] →
       get_img_prefix svc oz cache brain_id = .ok (r ++ chars "/"))
    ∧ (( find_img_prefix svc oz brain_id).length ≠ 1 →
       get_img_prefix svc oz cache brain_id =
         .error (chars "Image Prefixes Found - "
           ++ pyListRepr ( find_img_prefix svc oz brain_id))
       ∧ containsStr (pyListRepr ( find_img_prefix svc oz brain_id))
           (chars "Image Prefixes Found - "
             ++ pyListRepr ( find_img_prefix svc oz brain_id)) = true) := by
  unfold get_img_prefix
  rw [hmiss]
  constructor
  · intro r hr
    rw [hr]
  · intro hlen
    refine ⟨?_, containsStr_append_left _ _⟩
    cases hfind : find_img_prefix svc oz brain_id with
    | nil => rfl
    | cons a t =>
      cases t with
      | nil => exact absurd (by rw [hfind]; rfl) hlen
      | cons b t2 => rfl

/-- Witness for C3: with an empty bucket no candidate survives, and the
lookup raises the error message carrying the empty candidate list. -/
theorem unique_candidate_required_witness :
    ( find_img_prefix (fun _ _ => []) (fun _ => .error []) (chars "653158")).length ≠ 1 ∧
    get_img_prefix (fun _ _ => []) (fun _ => .error []) (some []) (chars "653158") =
      .error (chars "Image Prefixes Found - "
        ++ pyListRepr ( find_img_prefix (fun _ _ => []) (fun _ => .error []) (chars "653158"))) :=
  ⟨by decide,
   ((unique_candidate_required (fun _ _ => []) (fun _ => .error [])
       (some []) (chars "653158") rfl).2 (by decide)).1⟩

/-!  ## Claims about the Spreadsheet Extractor (`smartsheet_util.py`)  -/

/-- Claim C8: `get_value` returns the display value whenever it is a
non-empty string and falls back to the raw value exactly when the
display value is the empty string or absent. -/
theorem get_value_display_fallback (sheet : Sheet) (row_idx : Nat) (column_name : Str)
    (row : SheetRow) (col_id : Nat) (cell : Cell)
    (hrow : sheet.rows[row_idx]? = some row)
    (hcol : dictGet (column_name_to_id sheet) column_name = some col_id)
    (hcell : row.cells.find? (fun c => c.column_id == col_id) = some cell) :
    (∀ s, cell.display_value = .pstr s → s ≠ [] →
       get_value sheet row_idx column_name = some (.pstr s))
    ∧ ((cell.display_value = .pstr [] ∨ cell.display_value = .pnone) →
       get_value sheet row_idx column_name = some cell.value) := by
  have hbase : get_value sheet row_idx column_name
      = some (pyOr cell.display_value cell.value) := by
    simp [get_value, hrow, hcol, hcell]
  constructor
  · intro s hs hne
    rw [hbase, hs]
    simp [pyOr, truthy, hne]
  · intro hd
    rw [hbase]
    rcases hd with hd | hd <;> rw [hd] <;> simp [pyOr, truthy]

/-- Witness for C8: a cell with display value `"disp"` and raw value
`"raw"` reads as `"disp"`. -/
theorem get_value_display_fallback_witness :
    get_value
      ⟨[(chars "A", 1)],
       [⟨10, none, [⟨1, .pstr (chars "raw"), .pstr (chars "disp")⟩]⟩]⟩
      0 (chars "A") = some (.pstr (chars "disp")) :=
  (get_value_display_fallback
      ⟨[(chars "A", 1)],
       [⟨10, none, [⟨1, .pstr (chars "raw"), .pstr (chars "disp")⟩]⟩]⟩
      0 (chars "A")
      ⟨10, none, [⟨1, .pstr (chars "raw"), .pstr (chars "disp")⟩]⟩ 1
      ⟨1, .pstr (chars "raw"), .pstr (chars "disp")⟩
      rfl (by decide) rfl).1 (chars "disp") rfl (by decide)

/-- Claim C10: `to_dataframe` emits, for every cell, the raw value when
the display value is truthy and the (falsy) display value otherwise —
the opposite preference to `get_value`. -/
theorem to_dataframe_inverted_preference (sheet : Sheet) (i j : Nat)
    (row : SheetRow) (cell : Cell)
    (hrow : sheet.rows[i]? = some row) (hcell : row.cells[j]? = some cell) :
    ((to_dataframe sheet).2[i]?).bind (fun r => r[j]?) =
      some (if truthy cell.display_value then cell.value else cell.display_value) := by
  simp [to_dataframe, List.getElem?_map, hrow, hcell]

/-- Witness for C10: a cell with truthy display value `"disp"`
contributes its raw value `"raw"` to the DataFrame grid. -/
theorem to_dataframe_inverted_preference_witness :
    ((to_dataframe
        ⟨[(chars "A", 1)],
         [⟨10, none, [⟨1, .pstr (chars "raw"), .pstr (chars "disp")⟩]⟩]⟩).2[0]?).bind
      (fun r => r[0]?) = some (.pstr (chars "raw")) := by
  rw [to_dataframe_inverted_preference
      ⟨[(chars "A", 1)],
       [⟨10, none, [⟨1, .pstr (chars "raw"), .pstr (chars "disp")⟩]⟩]⟩
      0 0
      ⟨10, none, [⟨1, .pstr (chars "raw"), .pstr (chars "disp")⟩]⟩
      ⟨1, .pstr (chars "raw"), .pstr (chars "disp")⟩ rfl rfl]
  decide

/-- Claim C4: in merge-site extraction the reviewed counter counts every
row whose `"Reviewed?"` value is truthy — confirmed or not — while a
record (its coordinate, segmentation id and ground-truth id) is
materialised exactly for the rows where both `"Merge Confirmation"` and
`"Reviewed?"` are truthy; hence a reviewed-but-unconfirmed row adds to
the denominator of its parent's success ratio yet produces no record. -/
theorem merge_sites_review_counting (gv : Nat → Str → PyVal) (le : PyVal → PyVal)
    (idxs : List Nat) :
    (find_confirmed_merge_sites gv le idxs).2
      = (idxs.filter (fun i => truthy (gv i (chars "Reviewed?")))).length
    ∧ (find_confirmed_merge_sites gv le idxs).1.xyz
      = (idxs.filter (fun i =>
          truthy (gv i (chars "Merge Confirmation"))
            && truthy (gv i (chars "Reviewed?")))).map
        (fun i => le (gv i (chars "World Coordinates")))
    ∧ (find_confirmed_merge_sites gv le idxs).1.segment_id
      = (idxs.filter (fun i =>
          truthy (gv i (chars "Merge Confirmation"))
            && truthy (gv i (chars "Reviewed?")))).map
        (fun i => gv i (chars "Segmentation ID"))
    ∧ (find_confirmed_merge_sites gv le idxs).1.groundtruth_id
      = (idxs.filter (fun i =>
          truthy (gv i (chars "Merge Confirmation"))
            && truthy (gv i (chars "Reviewed?")))).map
        (fun i => gv i (chars "Ground Truth ID")) := by
  induction idxs with
  | nil => exact ⟨rfl, rfl, rfl, rfl⟩
  | cons i rest ih =>
    obtain ⟨ih1, ih2, ih3, ih4⟩ := ih
    by_cases hm : truthy (gv i (chars "Merge Confirmation")) = true <;>
      by_cases hr : truthy (gv i (chars "Reviewed?")) = true <;>
        simp [find_confirmed_merge_sites, List.filter_cons, hm, hr, ih1, ih2, ih3, ih4] <;>
          omega

/-!  ## Claim about the Annotation Loader (`data_util.py`)  -/

theorem isPre_append (s t : Str) : isPre s (s ++ t) = true := by
  induction s with
  | nil => rfl
  | cons c cs ih => simp [isPre, ih]

theorem strLe_cons_iff (x y : Char) (xs ys : Str) :
    strLe (x :: xs) (y :: ys) = true ↔ (x < y ∨ (x = y ∧ strLe xs ys = true)) := by
  simp only [strLe]
  rcases lt_trichotomy x y with h | h | h
  · rw [if_pos h]; simp [h]
  · subst h; rw [if_neg (lt_irrefl x), if_neg (lt_irrefl x)]; simp
  · rw [if_neg (asymm h), if_pos h]
    simp only [Bool.false_eq_true, false_iff]
    rintro (hc | ⟨rfl, _⟩)
    · exact absurd hc (asymm h)
    · exact lt_irrefl x h

theorem strLe_refl (s : Str) : strLe s s = true := by
  induction s with
  | nil => rfl
  | cons c cs ih => rw [strLe_cons_iff]; exact Or.inr ⟨rfl, ih⟩

theorem strLe_total (a : Str) : ∀ b, strLe a b = true ∨ strLe b a = true := by
  induction a with
  | nil => intro b; exact Or.inl rfl
  | cons x xs ih =>
    intro b
    cases b with
    | nil => exact Or.inr rfl
    | cons y ys =>
      rcases lt_trichotomy x y with h | h | h
      · exact Or.inl ((strLe_cons_iff _ _ _ _).mpr (Or.inl h))
      · subst h
        rcases ih ys with h2 | h2
        · exact Or.inl ((strLe_cons_iff _ _ _ _).mpr (Or.inr ⟨rfl, h2⟩))
        · exact Or.inr ((strLe_cons_iff _ _ _ _).mpr (Or.inr ⟨rfl, h2⟩))
      · exact Or.inr ((strLe_cons_iff _ _ _ _).mpr (Or.inl h))

theorem strLe_trans (a : Str) :
    ∀ b c, strLe a b = true → strLe b c = true → strLe a c = true := by
  induction a with
  | nil => intro b c _ _; rfl
  | cons x xs ih =>
    intro b c h1 h2
    cases b with
    | nil =>
      have hfx : strLe (x :: xs) [] = false := rfl
      rw [hfx] at h1
      exact absurd h1 Bool.false_ne_true
    | cons y ys =>
      cases c with
      | nil =>
        have hfy : strLe (y :: ys) [] = false := rfl
        rw [hfy] at h2
        exact absurd h2 Bool.false_ne_true
      | cons z zs =>
        rw [strLe_cons_iff] at h1 h2 ⊢
        rcases h1 with h1 | ⟨rfl, h1⟩
        · rcases h2 with h2 | ⟨rfl, h2⟩
          · exact Or.inl (lt_trans h1 h2)
          · exact Or.inl h1
        · rcases h2 with h2 | ⟨rfl, h2⟩
          · exact Or.inl h2
          · exact Or.inr ⟨rfl, ih ys zs h1 h2⟩

instance : IsTotal Str StrLeP := ⟨fun a b => strLe_total a b⟩

instance : IsTrans Str StrLeP := ⟨fun a b c => strLe_trans a b c⟩

instance : IsRefl Str StrLeP := ⟨fun a => strLe_refl a⟩

theorem sorted_getLast_ub :
    ∀ (l : List Str) (h : l ≠ []), List.Sorted StrLeP l →
      ∀ x ∈ l, strLe x (l.getLast h) = true := by
  intro l
  induction l with
  | nil => intro h; exact absurd rfl h
  | cons a t ih =>
    intro h hs x hx
    cases t with
    | nil =>
      rcases List.mem_singleton.mp hx with rfl
      exact strLe_refl x
    | cons b t2 =>
      rw [List.getLast_cons (List.cons_ne_nil b t2)]
      rcases List.mem_cons.mp hx with rfl | hx2
      · exact List.rel_of_sorted_cons hs _
          (List.getLast_mem (List.cons_ne_nil b t2))
      · exact ih (List.cons_ne_nil b t2) hs.of_cons x hx2

theorem replaceAllGo_nil (pat rep : Str) (fuel : Nat) :
    replaceAllGo pat rep fuel [] = [] := by
  cases fuel <;> rfl

theorem replaceAllGo_congr (pat rep : Str) :
    ∀ f1, ∀ f2, ∀ s : Str, s.length ≤ f1 → s.length ≤ f2 →
      replaceAllGo pat rep f1 s = replaceAllGo pat rep f2 s := by
  intro f1
  induction f1 with
  | zero =>
    intro f2 s h1 _
    rw [List.eq_nil_of_length_eq_zero (Nat.le_zero.mp h1)]
    rw [replaceAllGo_nil, replaceAllGo_nil]
  | succ f1' ih =>
    intro f2 s h1 h2
    cases s with
    | nil => rw [replaceAllGo_nil, replaceAllGo_nil]
    | cons c cs =>
      cases f2 with
      | zero => simp at h2
      | succ f2' =>
        simp only [replaceAllGo]
        by_cases hcond : pat ≠ [] ∧ isPre pat (c :: cs) = true
        · rw [if_pos hcond, if_pos hcond]
          have hplen : 1 ≤ pat.length := by
            cases hp : pat with
            | nil => exact absurd hp hcond.1
            | cons _ _ => simp
          have hlen : ((c :: cs).drop pat.length).length ≤ f1' := by
            simp only [List.length_drop, List.length_cons]
            simp only [List.length_cons] at h1
            omega
          have hlen2 : ((c :: cs).drop pat.length).length ≤ f2' := by
            simp only [List.length_drop, List.length_cons]
            simp only [List.length_cons] at h2
            omega
          rw [ih f2' _ hlen hlen2]
        · rw [if_neg hcond, if_neg hcond]
          simp only [List.length_cons] at h1 h2
          rw [ih f2' cs (by omega) (by omega)]

theorem replaceAll_of_no_match (pat rep : Str) :
    ∀ s : Str, (∀ t, t <:+ s → t ≠ [] → isPre pat t = false) →
      replaceAll pat rep s = s := by
  have hgo : ∀ fuel, ∀ s : Str, (∀ t, t <:+ s → t ≠ [] → isPre pat t = false) →
      replaceAllGo pat rep fuel s = s := by
    intro fuel
    induction fuel with
    | zero => intro s _; rfl
    | succ f ih =>
      intro s hno
      cases s with
      | nil => rfl
      | cons c cs =>
        have hfalse : isPre pat (c :: cs) = false :=
          hno (c :: cs) List.suffix_rfl (List.cons_ne_nil c cs)
        have hcond : ¬ (pat ≠ [] ∧ isPre pat (c :: cs) = true) := by
          rintro ⟨-, hpre⟩
          rw [hfalse] at hpre
          exact Bool.false_ne_true hpre
        simp only [replaceAllGo, if_neg hcond]
        rw [ih cs (fun t ht hne => hno t (ht.trans (List.suffix_cons c cs)) hne)]
  intro s hno
  exact hgo s.length s hno

theorem replaceAll_prepend (pat rep t : Str) (hp : pat ≠ []) :
    replaceAll pat rep (pat ++ t) = rep ++ replaceAll pat rep t := by
  cases hpat : pat with
  | nil => exact absurd hpat hp
  | cons p0 ps =>
    have hpre : isPre (p0 :: ps) ((p0 :: ps) ++ t) = true := isPre_append _ _
    have hcond : (p0 :: ps) ≠ [] ∧ isPre (p0 :: ps) (p0 :: (ps ++ t)) = true :=
      ⟨List.cons_ne_nil p0 ps, hpre⟩
    show replaceAllGo (p0 :: ps) rep ((p0 :: (ps ++ t)).length) (p0 :: (ps ++ t))
      = rep ++ replaceAll (p0 :: ps) rep t
    simp only [List.length_cons, replaceAllGo, if_pos hcond]
    congr 1
    have hdrop : List.drop (ps.length + 1) (p0 :: (ps ++ t)) = t := by
      have h : (p0 :: (ps ++ t)) = (p0 :: ps) ++ t := rfl
      rw [h, ← List.length_cons p0 ps, List.drop_left]
    rw [hdrop]
    apply replaceAllGo_congr
    · simp only [List.length_cons] at *
      have : (ps ++ t).length = ps.length + t.length := List.length_append ps t
      omega
    · exact Nat.le_refl t.length

theorem replace_strips_digits (d : Str) (hd : ∀ c ∈ d, c.isDigit = true) :
    replaceAll (chars "results_") [] (chars "results_" ++ d) = d := by
  rw [replaceAll_prepend _ _ _ (by decide), List.nil_append]
  apply replaceAll_of_no_match
  intro t ht hne
  cases t with
  | nil => exact absurd rfl hne
  | cons c cs =>
    have hc : c.isDigit = true := hd c (ht.subset (List.mem_cons_self c cs))
    have hcr : ('r' == c) = false := by
      refine beq_eq_false_iff_ne.mpr (fun h => ?_)
      rw [← h] at hc
      exact absurd hc (by decide)
    rw [show chars "results_" = 'r' :: chars "esults_" from rfl]
    simp [isPre, hcr]

/-- The extraction `find_most_recent_dirname` performs on each entry:
last directory component with the `"results_"` marker deleted. -/
def embeddedDate (p : Str) : Str :=
  replaceAll (chars "results_") [] (secondLastComponent p)

theorem fmrd_is_max (l : List Str) (hne : l ≠ []) :
    ∃ m ∈ l.map embeddedDate, (∀ x ∈ l.map embeddedDate, strLe x m = true)
      ∧ find_most_recent_dirname l = chars "results_" ++ m := by
  have hdne : l.map embeddedDate ≠ [] := by
    simpa using hne
  have hsne : pySorted (l.map embeddedDate) ≠ [] := by
    intro hc
    apply hdne
    have hlen := List.length_insertionSort StrLeP (l.map embeddedDate)
    have hc2 : List.insertionSort StrLeP (l.map embeddedDate) = [] := hc
    rw [hc2] at hlen
    exact List.eq_nil_of_length_eq_zero hlen.symm
  have hm_eq : (pySorted (l.map embeddedDate)).getLastD []
      = (pySorted (l.map embeddedDate)).getLast hsne := by
    rw [List.getLastD_eq_getLast?, List.getLast?_eq_getLast _ hsne]
    rfl
  refine ⟨(pySorted (l.map embeddedDate)).getLastD [], ?_, ?_, ?_⟩
  · rw [hm_eq]
    exact (List.mem_insertionSort StrLeP).mp (List.getLast_mem hsne)
  · intro x hx
    rw [hm_eq]
    exact sorted_getLast_ub _ hsne (List.sorted_insertionSort StrLeP _) x
      ((List.mem_insertionSort StrLeP).mpr hx)
  · rfl

/-- Claim C5: on a non-empty list of `/`-terminated entries whose last
directory component has the form `results_YYYYMMDD`,
`find_most_recent_dirname` returns `results_` followed by the
lexicographically maximal embedded date among the inputs. -/
theorem most_recent_dirname_max (l : List Str) (hne : l ≠ [])
    (hform : ∀ p ∈ l, ∃ d, d.length = 8 ∧ (∀ c ∈ d, c.isDigit = true)
      ∧ pyEndsWith p (chars "/") = true
      ∧ secondLastComponent p = chars "results_" ++ d) :
    ∃ p₀ ∈ l, ∃ m, secondLastComponent p₀ = chars "results_" ++ m
      ∧ (∀ p ∈ l, ∀ d, secondLastComponent p = chars "results_" ++ d →
          strLe d m = true)
      ∧ find_most_recent_dirname l = chars "results_" ++ m := by
  have hext : ∀ p ∈ l, ∃ d, secondLastComponent p = chars "results_" ++ d
      ∧ embeddedDate p = d := by
    intro p hp
    obtain ⟨d, -, hdig, -, hsec⟩ := hform p hp
    exact ⟨d, hsec, by rw [embeddedDate, hsec, replace_strips_digits d hdig]⟩
  obtain ⟨m, hmem, hub, heq⟩ := fmrd_is_max l hne
  obtain ⟨p₀, hp₀, hfp₀⟩ := List.mem_map.mp hmem
  obtain ⟨d₀, hsec₀, hd₀⟩ := hext p₀ hp₀
  refine ⟨p₀, hp₀, m, ?_, ?_, heq⟩
  · rw [hsec₀, ← hfp₀, hd₀]
  · intro p hp d hd
    obtain ⟨d', hsec', hd'⟩ := hext p hp
    have : d = d' := by
      apply List.append_cancel_left
      rw [← hd, ← hsec']
    rw [this, ← hd']
    exact hub (embeddedDate p) (List.mem_map.mpr ⟨p, hp, rfl⟩)

/-- Witness for C5: the two-entry example from the specification returns
`results_20240615`. -/
theorem most_recent_dirname_max_witness :
    (∃ p₀ ∈ [chars "a/results_20230101/", chars "b/results_20240615/"], ∃ m,
      secondLastComponent p₀ = chars "results_" ++ m
      ∧ (∀ p ∈ [chars "a/results_20230101/", chars "b/results_20240615/"],
          ∀ d, secondLastComponent p = chars "results_" ++ d → strLe d m = true)
      ∧ find_most_recent_dirname [chars "a/results_20230101/", chars "b/results_20240615/"]
          = chars "results_" ++ m)
    ∧ find_most_recent_dirname [chars "a/results_20230101/", chars "b/results_20240615/"]
        = chars "results_20240615" := by
  constructor
  · refine most_recent_dirname_max _ (by decide) ?_
    intro p hp
    rcases List.mem_cons.mp hp with rfl | hp2
    · exact ⟨chars "20230101", by decide, by decide, by decide, by decide⟩
    · rcases List.mem_singleton.mp hp2 with rfl
      exact ⟨chars "20240615", by decide, by decide, by decide, by decide⟩
  · decide

/-!  ## Claim about the Prefix Cache (`io_util.py`)  -/

theorem hexVal_hexDig : ∀ d < 16, hexVal (hexDig d) = some d := by decide

theorem hex4_toHex4 (n : Nat) (h : n < 65536) :
    hex4 (hexDig (n / 4096 % 16)) (hexDig (n / 256 % 16))
      (hexDig (n / 16 % 16)) (hexDig (n % 16)) = some n := by
  have h1 := hexVal_hexDig (n / 4096 % 16) (Nat.mod_lt _ (by norm_num))
  have h2 := hexVal_hexDig (n / 256 % 16) (Nat.mod_lt _ (by norm_num))
  have h3 := hexVal_hexDig (n / 16 % 16) (Nat.mod_lt _ (by norm_num))
  have h4 := hexVal_hexDig (n % 16) (Nat.mod_lt _ (by norm_num))
  simp only [hex4, h1, h2, h3, h4, Option.bind_eq_bind, Option.some_bind,
    Option.pure_def, Option.some.injEq]
  omega

theorem escapeChar_ne_nil (c : Char) : escapeChar c ≠ [] := by
  unfold escapeChar
  repeat' split
  all_goals simp

theorem length_le_escapeString (s : Str) : s.length ≤ (escapeString s).length := by
  induction s with
  | nil => simp [escapeString]
  | cons c cs ih =>
    have hpos : 1 ≤ (escapeChar c).length :=
      List.length_pos.mpr (escapeChar_ne_nil c)
    simp only [escapeString, List.flatMap_cons, List.length_append, List.length_cons]
    simp only [escapeString] at ih
    omega

theorem skipWs_not_ws (c : Char) (r : Str) (h : isJsonWs c = false) :
    skipWs (c :: r) = c :: r := by
  simp [skipWs, List.dropWhile, h]

theorem skipWs_space (r : Str) : skipWs (' ' :: r) = skipWs r := by
  simp [skipWs, List.dropWhile, isJsonWs]

theorem intercalate_singleton (sep : Str) (x : Str) :
    List.intercalate sep [x] = x := by
  simp [List.intercalate, List.intersperse]

theorem intercalate_cons_cons (sep : Str) (x y : Str) (t : List Str) :
    List.intercalate sep (x :: y :: t) = x ++ sep ++ List.intercalate sep (y :: t) := by
  simp [List.intercalate, List.intersperse]

theorem serStr_shape (s : Str) : serStr s = '"' :: (escapeString s ++ ['"']) := rfl

theorem two_le_length_serStr (s : Str) : 2 ≤ (serStr s).length := by
  rw [serStr_shape]
  simp

theorem serMembers_single (kv : Str × Str) :
    serMembers [kv] = serStr kv.1 ++ ':' :: ' ' :: serStr kv.2 := by
  rw [serMembers, List.map_cons, List.map_nil, intercalate_singleton]

theorem serMembers_cons_cons (kv kv2 : Str × Str) (t : List (Str × Str)) :
    serMembers (kv :: kv2 :: t)
      = (serStr kv.1 ++ ':' :: ' ' :: serStr kv.2) ++ chars ", "
        ++ serMembers (kv2 :: t) := by
  rw [serMembers, List.map_cons, List.map_cons, intercalate_cons_cons]
  rw [serMembers, List.map_cons]

theorem serMembers_head_quote (m : List (Str × Str)) (hm : m ≠ []) :
    ∃ t, serMembers m = '"' :: t := by
  cases m with
  | nil => exact absurd rfl hm
  | cons kv t =>
    cases t with
    | nil =>
      refine ⟨escapeString kv.1 ++ ['"'] ++ (':' :: ' ' :: serStr kv.2), ?_⟩
      rw [serMembers_single, serStr_shape]
      simp
    | cons kv2 t2 =>
      refine ⟨escapeString kv.1 ++ ['"'] ++ (':' :: ' ' :: serStr kv.2)
        ++ chars ", " ++ serMembers (kv2 :: t2), ?_⟩
      rw [serMembers_cons_cons, serStr_shape]
      simp

theorem length_le_serMembers (m : List (Str × Str)) :
    m.length ≤ (serMembers m).length := by
  induction m with
  | nil => simp [serMembers]
  | cons kv t ih =>
    cases t with
    | nil =>
      have := two_le_length_serStr kv.1
      rw [serMembers_single]
      simp only [List.length_cons, List.length_nil, List.length_append]
      omega
    | cons kv2 t2 =>
      rw [serMembers_cons_cons]
      have := two_le_length_serStr kv.1
      simp only [List.length_cons, List.length_append] at *
      omega

theorem parseStrAux_step (c : Char) (tail : Str) (f : Nat) :
    parseStrAux (f + 1) (escapeChar c ++ tail)
      = (parseStrAux f tail).map (fun p => (c :: p.1, p.2)) := by
  by_cases h1 : c = '"'
  · subst h1; rfl
  by_cases h2 : c = '\\'
  · subst h2; rfl
  by_cases h3 : c = '\n'
  · subst h3; rfl
  by_cases h4 : c = '\r'
  · subst h4; rfl
  by_cases h5 : c = '\t'
  · subst h5; rfl
  by_cases h6 : c = Char.ofNat 8
  · subst h6; rfl
  by_cases h7 : c = Char.ofNat 12
  · subst h7; rfl
  by_cases h8 : c.toNat < 32
  · have hesc : escapeChar c = '\\' :: 'u' :: toHex4 c.toNat := by
      unfold escapeChar
      rw [if_neg h1, if_neg h2, if_neg h3, if_neg h4, if_neg h5, if_neg h6, if_neg h7,
        if_pos h8]
    rw [hesc]
    simp only [toHex4, List.cons_append]
    simp only [parseStrAux]
    have hn1 : ¬ (55296 ≤ c.toNat ∧ c.toNat < 56320) := by omega
    have hn2 : ¬ (56320 ≤ c.toNat ∧ c.toNat < 57344) := by omega
    simp [hex4_toHex4 c.toNat (by omega), hn1, hn2, Char.ofNat_toNat]
  by_cases h9 : c.toNat < 127
  · have hesc : escapeChar c = [c] := by
      unfold escapeChar
      rw [if_neg h1, if_neg h2, if_neg h3, if_neg h4, if_neg h5, if_neg h6, if_neg h7,
        if_neg h8, if_pos h9]
    rw [hesc]
    simp only [List.cons_append, List.nil_append]
    simp only [parseStrAux]
    rw [if_neg h1, if_neg h2]
  by_cases h10 : c.toNat < 65536
  · have hesc : escapeChar c = '\\' :: 'u' :: toHex4 c.toNat := by
      unfold escapeChar
      rw [if_neg h1, if_neg h2, if_neg h3, if_neg h4, if_neg h5, if_neg h6, if_neg h7,
        if_neg h8, if_neg h9, if_pos h10]
    rw [hesc]
    simp only [toHex4, List.cons_append]
    simp only [parseStrAux]
    have hval : c.toNat < 55296 ∨ (57343 < c.toNat ∧ c.toNat < 1114112) := c.valid
    have hn1 : ¬ (55296 ≤ c.toNat ∧ c.toNat < 56320) := by omega
    have hn2 : ¬ (56320 ≤ c.toNat ∧ c.toNat < 57344) := by omega
    simp [hex4_toHex4 c.toNat (by omega), hn1, hn2, Char.ofNat_toNat]
  · have hval : c.toNat < 55296 ∨ (57343 < c.toNat ∧ c.toNat < 1114112) := c.valid
    have hesc : escapeChar c
        = '\\' :: 'u' :: toHex4 (55296 + (c.toNat - 65536) / 1024)
          ++ '\\' :: 'u' :: toHex4 (56320 + (c.toNat - 65536) % 1024) := by
      unfold escapeChar
      rw [if_neg h1, if_neg h2, if_neg h3, if_neg h4, if_neg h5, if_neg h6, if_neg h7,
        if_neg h8, if_neg h9, if_neg h10]
    rw [hesc]
    simp only [toHex4, List.cons_append, List.nil_append, List.append_assoc]
    rw [parseStrAux]
    rw [if_neg (show ¬ ('\\' : Char) = '"' by decide), if_pos (rfl : ('\\' : Char) = '\\')]
    have ht1 : 55296 ≤ 55296 + (c.toNat - 65536) / 1024
        ∧ 55296 + (c.toNat - 65536) / 1024 < 56320 := ⟨by omega, by omega⟩
    have ht2 : 56320 ≤ 56320 + (c.toNat - 65536) % 1024
        ∧ 56320 + (c.toNat - 65536) % 1024 < 57344 := ⟨by omega, by omega⟩
    simp [ht1, ht2, hex4_toHex4 (55296 + (c.toNat - 65536) / 1024) (by omega),
      hex4_toHex4 (56320 + (c.toNat - 65536) % 1024) (by omega)]
    have harith : 65536 + (c.toNat - 65536) / 1024 * 1024 + (c.toNat - 65536) % 1024
        = c.toNat := by omega
    rw [harith, Char.ofNat_toNat]

theorem parseStrAux_round (s : Str) :
    ∀ (r : Str) (fuel : Nat), s.length < fuel →
      parseStrAux fuel (escapeString s ++ '"' :: r) = some (s, r) := by
  induction s with
  | nil =>
    intro r fuel hf
    cases fuel with
    | zero => omega
    | succ f => rfl
  | cons c cs ih =>
    intro r fuel hf
    cases fuel with
    | zero => omega
    | succ f =>
      have hcs : cs.length < f := by
        simp only [List.length_cons] at hf
        omega
      have hshape : escapeString (c :: cs) ++ '"' :: r
          = escapeChar c ++ (escapeString cs ++ '"' :: r) := by
        simp [escapeString, List.append_assoc]
      rw [hshape, parseStrAux_step, ih r f hcs]
      rfl

theorem parseString_round (s r : Str) :
    parseString (serStr s ++ r) = some (s, r) := by
  have hshape : serStr s ++ r = '"' :: (escapeString s ++ '"' :: r) := by
    rw [serStr_shape]
    simp
  rw [hshape]
  show (if ('"' : Char) = '"' then
      parseStrAux ((escapeString s ++ '"' :: r).length + 1) (escapeString s ++ '"' :: r)
    else none) = some (s, r)
  rw [if_pos rfl]
  apply parseStrAux_round
  have h1 := length_le_escapeString s
  simp only [List.length_append, List.length_cons]
  omega

theorem parseMembers_round :
    ∀ (m : List (Str × Str)) (rest : Str) (fuel : Nat), m ≠ [] → m.length ≤ fuel →
      parseMembers fuel (serMembers m ++ '\x7d' :: rest) = some (m, rest) := by
  intro m
  induction m with
  | nil => intro rest fuel hm _; exact absurd rfl hm
  | cons kv t ih =>
    intro rest fuel _ hlen
    cases fuel with
    | zero => simp at hlen
    | succ f =>
      have hcol : ∀ x : Str, skipWs (':' :: x) = ':' :: x :=
        fun x => skipWs_not_ws ':' x (by decide)
      have hq : ∀ (v : Str) (x : Str), skipWs (serStr v ++ x) = serStr v ++ x := by
        intro v x
        rw [serStr_shape]
        simp only [List.cons_append]
        exact skipWs_not_ws '"' _ (by decide)
      have hbrace : ∀ x : Str, skipWs ('\x7d' :: x) = '\x7d' :: x :=
        fun x => skipWs_not_ws '\x7d' x (by decide)
      cases t with
      | nil =>
        have hshape : serMembers [kv] ++ '\x7d' :: rest
            = serStr kv.1 ++ (':' :: ' ' :: (serStr kv.2 ++ '\x7d' :: rest)) := by
          rw [serMembers_single]
          simp
        rw [hshape]
        simp only [parseMembers, parseString_round kv.1, hcol, skipWs_space, hq,
          parseString_round kv.2, hbrace]
        simp
      | cons kv2 t2 =>
        have hshape : serMembers (kv :: kv2 :: t2) ++ '\x7d' :: rest
            = serStr kv.1 ++ (':' :: ' ' :: (serStr kv.2
              ++ (',' :: ' ' :: (serMembers (kv2 :: t2) ++ '\x7d' :: rest)))) := by
          rw [serMembers_cons_cons]
          simp [chars]
        rw [hshape]
        have hcomma : ∀ x : Str, skipWs (',' :: x) = ',' :: x :=
          fun x => skipWs_not_ws ',' x (by decide)
        have hm2 : ∀ x : Str, skipWs (serMembers (kv2 :: t2) ++ x)
            = serMembers (kv2 :: t2) ++ x := by
          intro x
          obtain ⟨tq, htq⟩ := serMembers_head_quote (kv2 :: t2) (List.cons_ne_nil kv2 t2)
          rw [htq]
          simp only [List.cons_append]
          exact skipWs_not_ws '"' _ (by decide)
        have hrec := ih rest f (List.cons_ne_nil kv2 t2)
          (by simp only [List.length_cons] at hlen ⊢; omega)
        simp only [parseMembers, parseString_round kv.1, hcol, skipWs_space, hq,
          parseString_round kv.2, hcomma, hm2, hrec]
        simp


theorem jsonLoad_jsonDump (m : List (Str × Str)) :
    jsonLoad (jsonDump m) = some (pythonDict m) := by
  cases m with
  | nil => rfl
  | cons kv t =>
    obtain ⟨tq, htq⟩ := serMembers_head_quote (kv :: t) (List.cons_ne_nil kv t)
    have hlen : (kv :: t).length ≤ tq.length + 1 + 1 + 1 := by
      have h1 := length_le_serMembers (kv :: t)
      rw [htq] at h1
      simp only [List.length_cons] at h1 ⊢
      omega
    have h3 : parseMembers (tq.length + 1 + 1 + 1) ('"' :: (tq ++ ['\x7d']))
        = some (kv :: t, []) := by
      have hr := parseMembers_round (kv :: t) [] (tq.length + 1 + 1 + 1)
        (List.cons_ne_nil kv t) hlen
      rw [htq] at hr
      simpa using hr
    show jsonLoad ('\x7b' :: (serMembers (kv :: t) ++ ['\x7d'])) = some (pythonDict (kv :: t))
    rw [htq]
    simp [jsonLoad, skipWs_not_ws, isJsonWs, h3]
    rfl


theorem foldl_upsert_eq {α β : Type} [DecidableEq α] :
    ∀ (m acc : List (α × β)), (keysOf (acc ++ m)).Nodup →
      List.foldl (fun acc kv => dictUpsert acc kv.1 kv.2) acc m = acc ++ m := by
  intro m
  induction m with
  | nil => intro acc _; simp
  | cons kv t ih =>
    intro acc hnd
    have hk : kv.1 ∉ keysOf acc := by
      intro hmem
      rw [keysOf, List.map_append] at hnd
      rcases List.nodup_append.mp hnd with ⟨-, -, hdisj⟩
      exact hdisj hmem (by simp [keysOf])
    have hup : dictUpsert acc kv.1 kv.2 = acc ++ [(kv.1, kv.2)] := by
      rw [dictUpsert, if_neg hk]
    have heq : (acc ++ [(kv.1, kv.2)]) ++ t = acc ++ ((kv.1, kv.2) :: t) := by simp
    have h2 : (keysOf ((acc ++ [(kv.1, kv.2)]) ++ t)).Nodup := by
      rw [heq]
      simpa using hnd
    simp only [List.foldl_cons, hup]
    rw [ih (acc ++ [(kv.1, kv.2)]) h2, heq]

theorem pythonDict_eq_of_nodup {α β : Type} [DecidableEq α] (m : List (α × β))
    (h : (keysOf m).Nodup) : pythonDict m = m := by
  have hr := foldl_upsert_eq m [] (by simpa using h)
  simpa [pythonDict] using hr

/-- Claim C9: writing a prefix-cache mapping with `write_json` and
reading the same path back with `read_json` returns the identical
mapping (for any genuine dict contents, i.e. with no duplicate keys). -/
theorem cache_round_trip (fs : FileSys) (path : Str) (m : List (Str × Str))
    (h : (keysOf m).Nodup) :
    read_json (write_json fs path m) path = some m := by
  unfold read_json write_json
  rw [if_pos rfl]
  show jsonLoad (jsonDump m) = some m
  rw [jsonLoad_jsonDump, pythonDict_eq_of_nodup m h]

/-- Witness for C9: a one-entry cache written to a fresh file system and
read back. -/
theorem cache_round_trip_witness :
    (keysOf [(chars "653158", chars "s3://aind-open-data/exaspim_653158/fused.zarr/")]).Nodup
    ∧ read_json
        (write_json (fun _ => none) (chars "cache.json")
          [(chars "653158", chars "s3://aind-open-data/exaspim_653158/fused.zarr/")])
        (chars "cache.json")
      = some [(chars "653158", chars "s3://aind-open-data/exaspim_653158/fused.zarr/")] :=
  ⟨by decide,
   cache_round_trip (fun _ => none) (chars "cache.json")
     [(chars "653158", chars "s3://aind-open-data/exaspim_653158/fused.zarr/")] (by decide)⟩

end ExaSPIM
